import Mathlib

/-!
Verification development for the Virtus WorkChain repository
(`blockchain.py`, `consensus.py`, `utils.py`).

The Python code is embedded shallowly:

* SHA-256 is abstracted as a function parameter `H : HashInput → String`
  (for block hashing, over the six fields serialized by
  `Block.calculate_hash`) and `Hsig : String → String` (for certificate
  signatures over a concatenated string).  The code never inspects hash
  values beyond string equality and a leading-zero check, so every theorem
  is stated for an arbitrary hash function; concrete instantiations are
  used for witnesses.
* `time.time()` readings are passed as explicit `Nat` arguments, one per
  call site, in source order.
* Mutation of `self` becomes explicit state passing on `ChainState`;
  `raise ValueError` branches become dedicated outcome constructors.
* The unbounded Proof-of-Work `while` loop is modelled by a fuel-indexed
  search `powSearch`; `.outOfFuel` corresponds to the loop not having
  terminated within the given fuel.
-/

/-- A transaction dict `{"from": sender, "to": recipient, "amount": amount}`
as built by `VirtusWorkChain.add_transaction` and the reward transaction in
`mine_block`. -/
structure Tx where
  sender : String
  recipient : String
  amount : Int
  deriving DecidableEq, Repr

/-- A task certificate dict as built by `generate_task_certificate`. -/
structure Cert where
  task_id : String
  user_address : String
  timestamp : Nat
  signature : String
  deriving DecidableEq, Repr

/-- The six fields serialized (with sorted keys) and hashed by
`Block.calculate_hash`. -/
structure HashInput where
  index : Nat
  timestamp : Nat
  transactions : List Tx
  task_certificates : List Cert
  previous_hash : String
  nonce : Nat
  deriving DecidableEq, Repr

/-- The `Block` class: the six content fields plus the stored `hash`
attribute. -/
structure Block where
  index : Nat
  timestamp : Nat
  transactions : List Tx
  task_certificates : List Cert
  previous_hash : String
  nonce : Nat
  hash : String
  deriving DecidableEq, Repr

/-- The content fields of a block, i.e. what `calculate_hash` reads. -/
def Block.toInput (b : Block) : HashInput :=
  ⟨b.index, b.timestamp, b.transactions, b.task_certificates, b.previous_hash, b.nonce⟩

/-- Build a block from content fields plus a stored hash value. -/
def mkBlock (bd : HashInput) (h : String) : Block :=
  ⟨bd.index, bd.timestamp, bd.transactions, bd.task_certificates, bd.previous_hash, bd.nonce, h⟩

/-- The instance state of a `VirtusWorkChain` object. -/
structure ChainState where
  chain : List Block
  difficulty : Nat
  pending_transactions : List Tx
  pending_task_certificates : List Cert
  min_task_certificates_per_block : Nat
  mining_reward : Int
  deriving DecidableEq, Repr

section Chain

variable (H : HashInput → String)

/-- `Block.calculate_hash`: hash of the six content fields. -/
def calculate_hash (b : Block) : String :=
  H b.toInput

/-- `Block.__init__` followed by `self.hash = self.calculate_hash()`:
the block constructor seals the stored hash from the content fields.
`t` is the `time.time()` reading taken in the constructor. -/
def sealBlock (index : Nat) (transactions : List Tx) (task_certificates : List Cert)
    (previous_hash : String) (t : Nat) : Block :=
  mkBlock ⟨index, t, transactions, task_certificates, previous_hash, 0⟩
    (H ⟨index, t, transactions, task_certificates, previous_hash, 0⟩)

/-- `create_genesis_block`: `Block(0, [], [], "0")`. -/
def create_genesis_block (t : Nat) : Block :=
  sealBlock H 0 [] [] "0" t

/-- `VirtusWorkChain.__init__`: genesis chain, `difficulty = 4`,
empty queues, `min_task_certificates_per_block = 5`, `mining_reward = 5`. -/
def initChain (t : Nat) : ChainState :=
  { chain := [create_genesis_block H t]
    difficulty := 4
    pending_transactions := []
    pending_task_certificates := []
    min_task_certificates_per_block := 5
    mining_reward := 5 }

/-- `get_latest_block`: `self.chain[-1]` (`none` models the `IndexError`
on an empty list, which never occurs on constructed chains). -/
def get_latest_block (st : ChainState) : Option Block :=
  st.chain.getLast?

/-- `add_transaction`: append `{"from": sender, "to": recipient, "amount": amount}`
to the pending list. -/
def add_transaction (st : ChainState) (sender recipient : String) (amount : Int) : ChainState :=
  { st with pending_transactions := st.pending_transactions ++ [⟨sender, recipient, amount⟩] }

/-- `add_task_certificate`: append the certificate to the pending list. -/
def add_task_certificate (st : ChainState) (c : Cert) : ChainState :=
  { st with pending_task_certificates := st.pending_task_certificates ++ [c] }

/-- The string `"0" * d`. -/
def zeros (d : Nat) : String :=
  ⟨List.replicate d '0'⟩

/-- The `while` guard of the Proof-of-Work loop, negated:
`block.hash[:difficulty] == "0" * difficulty`. -/
def hashOk (d : Nat) (h : String) : Bool :=
  h.take d == zeros d

/-- The Proof-of-Work loop of `mine_block`, fuel-indexed: starting from the
given content fields, repeatedly increment `nonce` (recomputing the hash)
until the hash has the required leading zeros; return the successful nonce,
or `none` if the loop has not terminated within `fuel` further iterations. -/
def powSearch (d : Nat) (bd : HashInput) : Nat → Option Nat
  | 0 => if hashOk d (H bd) then some bd.nonce else none
  | fuel + 1 =>
    if hashOk d (H bd) then some bd.nonce
    else powSearch d { bd with nonce := bd.nonce + 1 } fuel

/-- The reward transaction `{"from": "network", "to": miner_address,
"amount": self.mining_reward}`. -/
def rewardTx (miner : String) (amount : Int) : Tx :=
  ⟨"network", miner, amount⟩

/-- Outcome of a `mine_block` call.  The two error constructors carry the
state at the moment the exception is raised (Python mutates `self` before
raising); `.outOfFuel` models a Proof-of-Work loop that has not terminated
within the supplied fuel. -/
inductive MineOutcome where
  | insufficientCertificates (st : ChainState)
  | emptyChain (st : ChainState)
  | outOfFuel
  | mined (b : Block) (st : ChainState)
  deriving DecidableEq, Repr

/-- `mine_block`, line by line: append the reward transaction; raise if
fewer than `min_task_certificates_per_block` certificates are pending;
dequeue the first `min_task_certificates_per_block` certificates; build the
candidate block on `len(self.chain)`, all pending transactions, the taken
certificates and the latest block's hash (`t` is the `time.time()` reading
in the `Block` constructor); run the Proof-of-Work loop; append the block
and clear the pending transactions. -/
def mine_block (st : ChainState) (miner : String) (t : Nat) (fuel : Nat) : MineOutcome :=
  let st1 : ChainState :=
    { st with pending_transactions := st.pending_transactions ++ [rewardTx miner st.mining_reward] }
  if st1.pending_task_certificates.length < st1.min_task_certificates_per_block then
    .insufficientCertificates st1
  else
    let certs := st1.pending_task_certificates.take st1.min_task_certificates_per_block
    let st2 : ChainState :=
      { st1 with pending_task_certificates :=
          st1.pending_task_certificates.drop st1.min_task_certificates_per_block }
    match st2.chain.getLast? with
    | none => .emptyChain st2
    | some last =>
      let bd0 : HashInput := ⟨st2.chain.length, t, st2.pending_transactions, certs, last.hash, 0⟩
      match powSearch H st2.difficulty bd0 fuel with
      | none => .outOfFuel
      | some n =>
        let bd : HashInput := { bd0 with nonce := n }
        let b : Block := mkBlock bd (H bd)
        .mined b { st2 with chain := st2.chain ++ [b], pending_transactions := [] }

/-- The content fields of the candidate block that `mine_block` builds
before the Proof-of-Work loop (defined when the chain is non-empty). -/
def mineInput (st : ChainState) (miner : String) (t : Nat) : HashInput :=
  { index := st.chain.length
    timestamp := t
    transactions := st.pending_transactions ++ [rewardTx miner st.mining_reward]
    task_certificates := st.pending_task_certificates.take st.min_task_certificates_per_block
    previous_hash := (st.chain.getLastD (mkBlock ⟨0, 0, [], [], "", 0⟩ "")).hash
    nonce := 0 }

/-- The loop body of `is_chain_valid`, walking blocks from index `i` with
`prev` the block at index `i - 1`: returns the index at which the loop
returns `False` (first hash mismatch, linkage break, or certificate
shortfall), or `none` if the loop finishes. -/
def firstViolationAux (minCerts : Nat) : Block → List Block → Nat → Option Nat
  | _, [], _ => none
  | prev, cur :: rest, i =>
    if cur.hash ≠ calculate_hash H cur then some i
    else if cur.previous_hash ≠ prev.hash then some i
    else if cur.task_certificates.length < minCerts then some i
    else firstViolationAux minCerts cur rest (i + 1)

/-- The index at which `is_chain_valid` returns `False`, if any
(the loop runs over `range(1, len(self.chain))`). -/
def firstViolation (st : ChainState) : Option Nat :=
  match st.chain with
  | [] => none
  | g :: rest => firstViolationAux H st.min_task_certificates_per_block g rest 1

/-- `is_chain_valid`: `True` exactly when the loop finds no violation. -/
def is_chain_valid (st : ChainState) : Bool :=
  (firstViolation H st).isNone

end Chain

section Certificates

variable (Hsig : String → String)

/-- `generate_task_certificate` from `blockchain.py`.  `valid` is the result
of the external `validate_task` check (a random stub, abstracted as an
input).  The function calls `time.time()` twice while building the dict:
`t1` is the reading stored in the `"timestamp"` field and `t2` is the
separate reading interpolated into the f-string that is hashed for the
`"signature"` field. -/
def generate_task_certificate (task_id user_address : String) (valid : Bool)
    (t1 t2 : Nat) : Option Cert :=
  if valid then
    some ⟨task_id, user_address, t1, Hsig (task_id ++ user_address ++ toString t2)⟩
  else
    none

/-- `generate_certificate` from `utils.py`: the timestamp is captured once
and reused in both the certificate body and the signature input.  (The
source file uses `time.time()` without importing `time`, so calling it as
written would raise a `NameError`; this models the body as written.) -/
def generate_certificate (task_id user_address : String) (t : Nat) : Cert :=
  ⟨task_id, user_address, t, Hsig (task_id ++ user_address ++ toString t)⟩

end Certificates

section Consensus

/-- The `self.stakers` dict of `ProofOfStake`, as an association list in
insertion order (Python dicts preserve insertion order; updating an
existing key keeps its position, deleting removes it). -/
abbrev Ledger := List (String × ℚ)

/-- `public_key in self.stakers` / `self.stakers[public_key]`. -/
def dictGet : Ledger → String → Option ℚ
  | [], _ => none
  | (k, v) :: rest, pk => if k = pk then some v else dictGet rest pk

/-- `self.stakers[public_key] = v` for a key already present: replace the
value at its existing position. -/
def dictUpdate : Ledger → String → ℚ → Ledger
  | [], _, _ => []
  | (k, v) :: rest, pk, amt =>
    if k = pk then (k, amt) :: rest else (k, v) :: dictUpdate rest pk amt

/-- `del self.stakers[public_key]`. -/
def dictDel : Ledger → String → Ledger
  | [], _ => []
  | (k, v) :: rest, pk => if k = pk then rest else (k, v) :: dictDel rest pk

/-- Errors raised by the `ProofOfStake` methods (`ValueError`s in Python). -/
inductive StakeError where
  | belowMinimumStake
  | insufficientStake
  | noStakers
  deriving DecidableEq, Repr

/-- `add_staker`: reject a stake below `min_stake = 10`; add to an existing
entry or create a new one (new dict keys go to the end of the iteration
order). -/
def add_staker (l : Ledger) (pk : String) (amount : ℚ) : Except StakeError Ledger :=
  if amount < 10 then .error .belowMinimumStake
  else
    match dictGet l pk with
    | some v => .ok (dictUpdate l pk (v + amount))
    | none => .ok (l ++ [(pk, amount)])

/-- `remove_staker`: raise if the key is absent or its balance is below
`amount`; otherwise subtract, deleting the entry when the balance reaches
exactly zero. -/
def remove_staker (l : Ledger) (pk : String) (amount : ℚ) : Except StakeError Ledger :=
  match dictGet l pk with
  | none => .error .insufficientStake
  | some bal =>
    if bal < amount then .error .insufficientStake
    else
      let bal' := bal - amount
      if bal' = 0 then .ok (dictDel l pk) else .ok (dictUpdate l pk bal')

/-- `sum(self.stakers.values())`. -/
def totalStake (l : Ledger) : ℚ :=
  (l.map Prod.snd).sum

/-- The cumulative-sum `for` loop of `select_validator`: walk the entries
in iteration order accumulating stake into `current`, returning the first
key whose running total meets or exceeds the draw. -/
def selectWalk (sel : ℚ) : ℚ → Ledger → Option String
  | _, [] => none
  | current, (k, s) :: rest =>
    if sel ≤ current + s then some k else selectWalk sel (current + s) rest

/-- `select_validator`: raise `NoStakers` on an empty ledger; otherwise run
the cumulative-sum walk on the draw `sel` (the `random.uniform(0, total_stake)`
result, passed in explicitly), falling back to the last key if the walk
exhausts. -/
def select_validator (l : Ledger) (sel : ℚ) : Except StakeError String :=
  if l = [] then .error .noStakers
  else
    match selectWalk sel 0 l with
    | some k => .ok k
    | none => .ok (l.getLastD ("", 0)).1

/-- The running total after consuming the entries up to index `i`
(inclusive): the sum of the first `i + 1` stakes. -/
def cumStake (l : Ledger) (i : Nat) : ℚ :=
  ((l.take (i + 1)).map Prod.snd).sum

/-- `calculate_reward`: `base_reward * (stake / 100)` with `base_reward = 2`
and the stake read with `.get(validator, 0)`. -/
def calculate_reward (l : Ledger) (validator : String) : ℚ :=
  2 * (((dictGet l validator).getD 0) / 100)

end Consensus

section Reachability

variable (H : HashInput → String)

/-- Chain states reachable from a fresh `VirtusWorkChain()` by any sequence
of `add_transaction`, `add_task_certificate` and `mine_block` calls
(including `mine_block` calls that raise). -/
inductive Reachable : ChainState → Prop where
  | init (t : Nat) : Reachable (initChain H t)
  | tx {st : ChainState} (sender recipient : String) (amount : Int) :
      Reachable st → Reachable (add_transaction st sender recipient amount)
  | cert {st : ChainState} (c : Cert) :
      Reachable st → Reachable (add_task_certificate st c)
  | mineOk {st st' : ChainState} {b : Block} (miner : String) (t fuel : Nat) :
      Reachable st → mine_block H st miner t fuel = .mined b st' → Reachable st'
  | mineFail {st st' : ChainState} (miner : String) (t fuel : Nat) :
      Reachable st → mine_block H st miner t fuel = .insufficientCertificates st' →
      Reachable st'
  | mineEmpty {st st' : ChainState} (miner : String) (t fuel : Nat) :
      Reachable st → mine_block H st miner t fuel = .emptyChain st' → Reachable st'

end Reachability

section ChainLemmas

variable (H : HashInput → String)

/-- The block that a successful `mine_block` appends, given the nonce `n`
found by the Proof-of-Work search. -/
def minedBlock (st : ChainState) (miner : String) (t n : Nat) : Block :=
  mkBlock { mineInput st miner t with nonce := n }
    (H { mineInput st miner t with nonce := n })

/-- The chain state after a successful `mine_block` with found nonce `n`. -/
def minedState (st : ChainState) (miner : String) (t n : Nat) : ChainState :=
  { st with
    chain := st.chain ++ [minedBlock H st miner t n]
    pending_transactions := []
    pending_task_certificates :=
      st.pending_task_certificates.drop st.min_task_certificates_per_block }

lemma mineInput_of_getLast {st : ChainState} {miner : String} {t : Nat} {last : Block}
    (hlast : st.chain.getLast? = some last) :
    mineInput st miner t =
      ⟨st.chain.length, t, st.pending_transactions ++ [rewardTx miner st.mining_reward],
        st.pending_task_certificates.take st.min_task_certificates_per_block, last.hash, 0⟩ := by
  simp [mineInput, List.getLastD_eq_getLast?, hlast]

lemma mine_block_of_lt {st : ChainState} {miner : String} {t fuel : Nat}
    (hlt : st.pending_task_certificates.length < st.min_task_certificates_per_block) :
    mine_block H st miner t fuel = .insufficientCertificates
      { st with pending_transactions :=
          st.pending_transactions ++ [rewardTx miner st.mining_reward] } := by
  simp [mine_block, hlt]

lemma mine_block_of_ge {st : ChainState} {miner : String} {t fuel : Nat} {last : Block} {n : Nat}
    (hge : st.min_task_certificates_per_block ≤ st.pending_task_certificates.length)
    (hlast : st.chain.getLast? = some last)
    (hpow : powSearch H st.difficulty (mineInput st miner t) fuel = some n) :
    mine_block H st miner t fuel = .mined (minedBlock H st miner t n) (minedState H st miner t n) := by
  rw [mineInput_of_getLast hlast] at hpow
  simp [mine_block, Nat.not_lt.mpr hge, hlast, hpow, minedBlock, minedState,
    mineInput_of_getLast hlast]

lemma mine_block_of_empty {st : ChainState} {miner : String} {t fuel : Nat}
    (hge : st.min_task_certificates_per_block ≤ st.pending_task_certificates.length)
    (hlast : st.chain.getLast? = none) :
    mine_block H st miner t fuel = .emptyChain
      { st with
        pending_transactions := st.pending_transactions ++ [rewardTx miner st.mining_reward]
        pending_task_certificates :=
          st.pending_task_certificates.drop st.min_task_certificates_per_block } := by
  simp [mine_block, Nat.not_lt.mpr hge, hlast]

lemma mine_block_of_noFuel {st : ChainState} {miner : String} {t fuel : Nat} {last : Block}
    (hge : st.min_task_certificates_per_block ≤ st.pending_task_certificates.length)
    (hlast : st.chain.getLast? = some last)
    (hpow : powSearch H st.difficulty (mineInput st miner t) fuel = none) :
    mine_block H st miner t fuel = .outOfFuel := by
  rw [mineInput_of_getLast hlast] at hpow
  simp [mine_block, Nat.not_lt.mpr hge, hlast, hpow]

lemma mine_block_insufficient_inv {st st' : ChainState} {miner : String} {t fuel : Nat}
    (h : mine_block H st miner t fuel = .insufficientCertificates st') :
    st.pending_task_certificates.length < st.min_task_certificates_per_block ∧
    st' = { st with pending_transactions :=
        st.pending_transactions ++ [rewardTx miner st.mining_reward] } := by
  by_cases hlt : st.pending_task_certificates.length < st.min_task_certificates_per_block
  · rw [mine_block_of_lt H hlt] at h
    cases h
    exact ⟨hlt, rfl⟩
  · exfalso
    have hge := Nat.not_lt.mp hlt
    rcases hc : st.chain.getLast? with _ | last
    · rw [mine_block_of_empty H hge hc] at h
      cases h
    · rcases hp : powSearch H st.difficulty (mineInput st miner t) fuel with _ | n
      · rw [mine_block_of_noFuel H hge hc hp] at h
        cases h
      · rw [mine_block_of_ge H hge hc hp] at h
        cases h

lemma mine_block_emptyChain_inv {st st' : ChainState} {miner : String} {t fuel : Nat}
    (h : mine_block H st miner t fuel = .emptyChain st') :
    st.chain = [] := by
  by_cases hlt : st.pending_task_certificates.length < st.min_task_certificates_per_block
  · rw [mine_block_of_lt H hlt] at h
    cases h
  · have hge := Nat.not_lt.mp hlt
    rcases hc : st.chain.getLast? with _ | last
    · exact List.getLast?_eq_none_iff.mp hc
    · exfalso
      rcases hp : powSearch H st.difficulty (mineInput st miner t) fuel with _ | n
      · rw [mine_block_of_noFuel H hge hc hp] at h
        cases h
      · rw [mine_block_of_ge H hge hc hp] at h
        cases h

lemma mine_block_mined_inv {st st' : ChainState} {miner : String} {t fuel : Nat} {b : Block}
    (h : mine_block H st miner t fuel = .mined b st') :
    st.min_task_certificates_per_block ≤ st.pending_task_certificates.length ∧
    ∃ last n, st.chain.getLast? = some last ∧
      powSearch H st.difficulty (mineInput st miner t) fuel = some n ∧
      b = minedBlock H st miner t n ∧ st' = minedState H st miner t n := by
  by_cases hlt : st.pending_task_certificates.length < st.min_task_certificates_per_block
  · rw [mine_block_of_lt H hlt] at h
    cases h
  · have hge := Nat.not_lt.mp hlt
    refine ⟨hge, ?_⟩
    rcases hc : st.chain.getLast? with _ | last
    · rw [mine_block_of_empty H hge hc] at h
      cases h
    · rcases hp : powSearch H st.difficulty (mineInput st miner t) fuel with _ | n
      · rw [mine_block_of_noFuel H hge hc hp] at h
        cases h
      · rw [mine_block_of_ge H hge hc hp] at h
        injection h with h1 h2
        exact ⟨last, n, rfl, rfl, h1.symm, h2.symm⟩

end ChainLemmas

section ValidityLemmas

variable (H : HashInput → String)

lemma toInput_mkBlock (bd : HashInput) (h : String) : (mkBlock bd h).toInput = bd := rfl

lemma calculate_hash_mkBlock (bd : HashInput) (h : String) :
    calculate_hash H (mkBlock bd h) = H bd := rfl

/-- The nonce returned by the Proof-of-Work search satisfies the loop's
exit condition. -/
lemma powSearch_hashOk {d : Nat} :
    ∀ (bd : HashInput) (fuel n : Nat), powSearch H d bd fuel = some n →
      hashOk d (H { bd with nonce := n }) = true := by
  intro bd fuel
  induction fuel generalizing bd with
  | zero =>
    intro n h
    simp only [powSearch] at h
    split at h
    · rename_i hok
      cases h
      simpa using hok
    · cases h
  | succ fuel ih =>
    intro n h
    simp only [powSearch] at h
    split at h
    · rename_i hok
      cases h
      simpa using hok
    · exact ih { bd with nonce := bd.nonce + 1 } n h

/-- If the validity loop finishes without a violation, every block it
visited stores its own recomputed hash. -/
lemma firstViolationAux_none_hash (m : Nat) :
    ∀ (l : List Block) (prev : Block) (k : Nat),
      firstViolationAux H m prev l k = none →
      ∀ b ∈ l, b.hash = calculate_hash H b := by
  intro l
  induction l with
  | nil => intro prev k _ b hb; cases hb
  | cons cur tl ih =>
    intro prev k h b hb
    simp only [firstViolationAux] at h
    by_cases c1 : cur.hash ≠ calculate_hash H cur
    · simp [c1] at h
    · by_cases c2 : cur.previous_hash ≠ prev.hash
      · simp [c1, c2] at h
      · by_cases c3 : cur.task_certificates.length < m
        · simp [c1, c2, c3] at h
        · simp only [c1, c2, c3, if_false, if_neg] at h
          rcases List.mem_cons.mp hb with rfl | hb'
          · exact Classical.not_not.mp c1
          · exact ih cur (k + 1) h b hb'

/-- Appending a block that stores its own hash, links to the last block,
and carries enough certificates preserves an unviolated validity walk. -/
lemma firstViolationAux_append (m : Nat) (b : Block)
    (hbh : b.hash = calculate_hash H b)
    (hcerts : m ≤ b.task_certificates.length) :
    ∀ (l : List Block) (prev : Block) (k : Nat),
      firstViolationAux H m prev l k = none →
      b.previous_hash = (l.getLastD prev).hash →
      firstViolationAux H m prev (l ++ [b]) k = none := by
  intro l
  induction l with
  | nil =>
    intro prev k _ hlink
    simp only [List.getLastD] at hlink
    simp [firstViolationAux, hbh, hlink, Nat.not_lt.mpr hcerts]
  | cons cur tl ih =>
    intro prev k h hlink
    simp only [firstViolationAux, List.cons_append] at h ⊢
    by_cases c1 : cur.hash ≠ calculate_hash H cur
    · simp [c1] at h
    · by_cases c2 : cur.previous_hash ≠ prev.hash
      · simp [c1, c2] at h
      · by_cases c3 : cur.task_certificates.length < m
        · simp [c1, c2, c3] at h
        · simp only [c1, c2, c3, if_false, if_neg] at h ⊢
          refine ih cur (k + 1) h ?_
          rw [List.getLastD_eq_getLast?] at hlink ⊢
          rwa [List.getLast?_cons, Option.getD_some] at hlink

/-- Replacing the block at position `j` of the walked segment by a block
whose stored hash does not match its recomputed hash makes the walk stop
exactly there. -/
lemma firstViolationAux_set (m : Nat) (b' : Block)
    (hb' : b'.hash ≠ calculate_hash H b') :
    ∀ (l : List Block) (prev : Block) (k j : Nat), j < l.length →
      firstViolationAux H m prev l k = none →
      firstViolationAux H m prev (l.set j b') k = some (k + j) := by
  intro l
  induction l with
  | nil => intro prev k j hj; cases hj
  | cons cur tl ih =>
    intro prev k j hj h
    simp only [firstViolationAux] at h
    by_cases c1 : cur.hash ≠ calculate_hash H cur
    · simp [c1] at h
    · by_cases c2 : cur.previous_hash ≠ prev.hash
      · simp [c1, c2] at h
      · by_cases c3 : cur.task_certificates.length < m
        · simp [c1, c2, c3] at h
        · simp only [c1, c2, c3, if_false, if_neg] at h
          match j with
          | 0 =>
            simp only [List.set_cons_zero, firstViolationAux, Nat.add_zero]
            rw [if_pos hb']
          | j' + 1 =>
            have hj' : j' < tl.length := Nat.lt_of_succ_lt_succ hj
            simp only [List.set_cons_succ, firstViolationAux, c1, c2, c3, if_false, if_neg]
            have harith : k + (j' + 1) = (k + 1) + j' := by omega
            rw [harith]
            exact ih cur (k + 1) j' hj' h

end ValidityLemmas

section Invariant

variable (H : HashInput → String)

/-- Structural well-formedness of a chain state: non-empty block list,
positional indices, the genesis block at position 0, hash linkage, and a
clean validity scan. -/
def ChainInv (st : ChainState) : Prop :=
  st.chain ≠ [] ∧
  st.chain.map Block.index = List.range st.chain.length ∧
  (st.chain.head?.map fun b => (b.index, b.transactions, b.task_certificates, b.previous_hash))
    = some (0, [], [], "0") ∧
  List.Chain' (fun a b => b.previous_hash = a.hash) st.chain ∧
  is_chain_valid H st = true

/-- One successful mining step preserves `ChainInv`. -/
lemma chainInv_mined {st : ChainState} {miner : String} {t n : Nat} {last : Block}
    (hge : st.min_task_certificates_per_block ≤ st.pending_task_certificates.length)
    (hlast : st.chain.getLast? = some last)
    (inv : ChainInv H st) :
    ChainInv H (minedState H st miner t n) := by
  obtain ⟨h1, h2, h3, h4, h5⟩ := inv
  have hbi : (minedBlock H st miner t n).index = st.chain.length := rfl
  have hbh : (minedBlock H st miner t n).hash = calculate_hash H (minedBlock H st miner t n) := rfl
  have hblink : (minedBlock H st miner t n).previous_hash = last.hash := by
    show (mineInput st miner t).previous_hash = last.hash
    rw [mineInput_of_getLast hlast]
  have hbcerts : st.min_task_certificates_per_block ≤
      (minedBlock H st miner t n).task_certificates.length := by
    show st.min_task_certificates_per_block ≤
      (st.pending_task_certificates.take st.min_task_certificates_per_block).length
    simp [Nat.min_eq_left hge]
  refine ⟨by simp [minedState], ?_, ?_, ?_, ?_⟩
  · show (st.chain ++ [minedBlock H st miner t n]).map Block.index
      = List.range (st.chain ++ [minedBlock H st miner t n]).length
    rw [List.map_append, h2, List.length_append]
    simp [hbi, List.range_succ]
  · show (st.chain ++ [minedBlock H st miner t n]).head?.map _ = _
    rw [List.head?_append_of_ne_nil st.chain h1]
    exact h3
  · show List.Chain' _ (st.chain ++ [minedBlock H st miner t n])
    refine List.chain'_append.mpr ⟨h4, List.chain'_singleton _, ?_⟩
    intro x hx y hy
    rw [hlast, Option.mem_def, Option.some.injEq] at hx
    simp only [List.head?_cons, Option.mem_def, Option.some.injEq] at hy
    subst hx hy
    exact hblink
  · rcases hchain : st.chain with _ | ⟨g, rest⟩
    · exact absurd hchain h1
    · have hv : firstViolationAux H st.min_task_certificates_per_block g rest 1 = none := by
        have h5' := h5
        simp only [is_chain_valid, firstViolation, hchain,
          Option.isNone_iff_eq_none] at h5'
        exact h5'
      have hlink' : (minedBlock H st miner t n).previous_hash = (rest.getLastD g).hash := by
        rw [hblink]
        rw [hchain, List.getLast?_cons] at hlast
        rw [List.getLastD_eq_getLast?]
        cases hlast
        rfl
      have happ := firstViolationAux_append H st.min_task_certificates_per_block
        (minedBlock H st miner t n) hbh hbcerts rest g 1 hv hlink'
      simp only [is_chain_valid, firstViolation, minedState, hchain, List.cons_append,
        Option.isNone_iff_eq_none]
      exact happ

lemma reachable_inv {st : ChainState} (h : Reachable H st) : ChainInv H st := by
  induction h with
  | init t =>
    refine ⟨by simp [initChain], ?_, ?_, ?_, ?_⟩
    · simp [initChain, create_genesis_block, sealBlock, mkBlock, List.range_succ]
    · simp [initChain, create_genesis_block, sealBlock, mkBlock]
    · simp [initChain]
    · rfl
  | tx sender recipient amount _ ih => exact ih
  | cert c _ ih => exact ih
  | mineFail miner t fuel _ hmf ih =>
    obtain ⟨-, rfl⟩ := mine_block_insufficient_inv H hmf
    exact ih
  | mineEmpty miner t fuel _ hme ih =>
    exact absurd (mine_block_emptyChain_inv H hme) ih.1
  | mineOk miner t fuel _ hm ih =>
    obtain ⟨hge, last, n, hlast, hpow, hb, hst'⟩ := mine_block_mined_inv H hm
    subst hb hst'
    exact chainInv_mined H hge hlast ih

end Invariant

section ConsensusLemmas

/-- Characterization of the cumulative-sum walk: started at offset `c` on a
non-empty list whose total (from `c`) covers the draw, it stops at the first
entry whose running total meets or exceeds the draw. -/
lemma selectWalk_spec (sel : ℚ) :
    ∀ (l : Ledger) (c : ℚ), l ≠ [] → sel ≤ c + (l.map Prod.snd).sum →
      ∃ i, ∃ hi : i < l.length,
        selectWalk sel c l = some (l.get ⟨i, hi⟩).1 ∧
        sel ≤ c + ((l.take (i + 1)).map Prod.snd).sum ∧
        ∀ j < i, c + ((l.take (j + 1)).map Prod.snd).sum < sel := by
  intro l
  induction l with
  | nil => intro c hne _; exact absurd rfl hne
  | cons e rest ih =>
    intro c _ hsum
    obtain ⟨k, s⟩ := e
    by_cases hhit : sel ≤ c + s
    · refine ⟨0, Nat.succ_pos _, ?_, ?_, ?_⟩
      · simp [selectWalk, hhit]
      · simpa using hhit
      · intro j hj; cases hj
    · have hlt : c + s < sel := not_le.mp hhit
      have hrest_ne : rest ≠ [] := by
        rintro rfl
        simp at hsum
        exact absurd hsum hhit
      have hsum' : sel ≤ (c + s) + (rest.map Prod.snd).sum := by
        simpa [add_assoc] using hsum
      obtain ⟨i, hi, hw, hcum, hprev⟩ := ih (c + s) hrest_ne hsum'
      refine ⟨i + 1, Nat.succ_lt_succ hi, ?_, ?_, ?_⟩
      · simpa [selectWalk, hhit] using hw
      · simpa [add_assoc] using hcum
      · intro j hj
        match j with
        | 0 => simpa using hlt
        | j' + 1 =>
          have := hprev j' (Nat.lt_of_succ_lt_succ hj)
          simpa [add_assoc] using this

lemma dictGet_eq_none_of_not_mem {l : Ledger} {pk : String}
    (h : pk ∉ l.map Prod.fst) : dictGet l pk = none := by
  induction l with
  | nil => rfl
  | cons e rest ih =>
    obtain ⟨k, v⟩ := e
    simp only [List.map_cons, List.mem_cons] at h
    push_neg at h
    simp only [dictGet, if_neg (Ne.symm h.1)]
    exact ih h.2

lemma dictGet_dictDel_self {l : Ledger} {pk : String}
    (hnd : (l.map Prod.fst).Nodup) : dictGet (dictDel l pk) pk = none := by
  induction l with
  | nil => rfl
  | cons e rest ih =>
    obtain ⟨k, v⟩ := e
    simp only [List.map_cons, List.nodup_cons] at hnd
    by_cases hk : k = pk
    · subst hk
      simp only [dictDel, if_pos rfl]
      exact dictGet_eq_none_of_not_mem hnd.1
    · simp only [dictDel, if_neg hk, dictGet, if_neg hk]
      exact ih hnd.2

lemma dictGet_dictUpdate_self {l : Ledger} {pk : String} {v : ℚ} {old : ℚ}
    (h : dictGet l pk = some old) : dictGet (dictUpdate l pk v) pk = some v := by
  induction l with
  | nil => cases h
  | cons e rest ih =>
    obtain ⟨k, w⟩ := e
    by_cases hk : k = pk
    · simp [dictUpdate, dictGet, hk]
    · simp only [dictGet, if_neg hk] at h
      simp only [dictUpdate, if_neg hk, dictGet, if_neg hk]
      exact ih h

end ConsensusLemmas

section Instances

/-- A concrete stand-in hash function that depends on the nonce and the
transaction list, used to instantiate theorems about tampering. -/
def Hg : HashInput → String := fun bd =>
  "H" ++ toString bd.nonce ++ "." ++ toString bd.transactions.length

/-- A concrete stand-in hash function whose output always meets difficulty
4, used to instantiate mining theorems. -/
def Hzero : HashInput → String := fun _ => "0000"

/-- A second block sealed on top of the genesis block under `Hg`. -/
def c1Block1 : Block :=
  sealBlock Hg 1 [] [] (create_genesis_block Hg 0).hash 0

/-- A two-block chain state that validates under `Hg` (the certificate
minimum is 0 here; `is_chain_valid` only compares it to each block's
certificate count). -/
def c1State : ChainState :=
  { chain := [create_genesis_block Hg 0, c1Block1]
    difficulty := 4
    pending_transactions := []
    pending_task_certificates := []
    min_task_certificates_per_block := 0
    mining_reward := 5 }

/-- `c1Block1` with its nonce mutated but its stored hash left unchanged. -/
def c1Tampered : Block := { c1Block1 with nonce := 1 }

/-- The genesis block with one transaction injected and the stored hash
left unchanged. -/
def genTampered : Block :=
  { create_genesis_block Hg 0 with transactions := [⟨"a", "b", 1⟩] }

/-- A fresh chain whose genesis block has been tampered in place. -/
def genTamperedState : ChainState :=
  { initChain Hg 0 with chain := (initChain Hg 0).chain.set 0 genTampered }

/-- A fresh chain under `Hzero` with exactly five pending certificates. -/
def stReady : ChainState :=
  add_task_certificate (add_task_certificate (add_task_certificate (add_task_certificate
    (add_task_certificate (initChain Hzero 0) ⟨"t0", "u", 0, "s"⟩) ⟨"t1", "u", 0, "s"⟩)
    ⟨"t2", "u", 0, "s"⟩) ⟨"t3", "u", 0, "s"⟩) ⟨"t4", "u", 0, "s"⟩

lemma stReady_reachable : Reachable Hzero stReady :=
  .cert _ (.cert _ (.cert _ (.cert _ (.cert _ (.init 0)))))

lemma stReady_mine_eq :
    mine_block Hzero stReady "m" 7 0
      = .mined (minedBlock Hzero stReady "m" 7 0) (minedState Hzero stReady "m" 7 0) := by
  decide

lemma stMined_reachable : Reachable Hzero (minedState Hzero stReady "m" 7 0) :=
  .mineOk "m" 7 0 stReady_reachable stReady_mine_eq

/-- The `{A: 90, B: 10}` stake ledger. -/
def l0 : Ledger := [("A", 90), ("B", 10)]

/-- A one-entry stake ledger. -/
def l1 : Ledger := [("A", 10)]

end Instances

/-- C1 (amended): in a chain on which `is_chain_valid` returns true,
replacing the block at any index `i ≥ 1` by a block whose stored hash is
unchanged but whose recomputed content hash differs (any content field
mutated without recomputing the stored hash, absent a hash collision)
makes `validate()` return false, with the scan stopping exactly at index
`i`.  The original claim also covered index 0; the validation loop starts
at index 1, so a tampered genesis block is not detected (see the
counterexample). -/
theorem tampered_nongenesis_block_invalidates (H : HashInput → String) (st : ChainState)
    (i : Nat) (b' orig : Block) (hi : 1 ≤ i)
    (horig : st.chain.get? i = some orig)
    (hvalid : is_chain_valid H st = true)
    (hhash : b'.hash = orig.hash)
    (hdiff : calculate_hash H b' ≠ calculate_hash H orig) :
    firstViolation H { st with chain := st.chain.set i b' } = some i ∧
    is_chain_valid H { st with chain := st.chain.set i b' } = false := by
  obtain ⟨j, rfl⟩ : ∃ j, i = j + 1 := ⟨i - 1, by omega⟩
  rcases hch : st.chain with _ | ⟨g, rest⟩
  · rw [hch] at horig
    cases horig
  · rw [hch, List.get?_cons_succ] at horig
    obtain ⟨hj, horig'⟩ := List.get?_eq_some.mp horig
    simp only [is_chain_valid, firstViolation, hch, Option.isNone_iff_eq_none] at hvalid
    have horigh : orig.hash = calculate_hash H orig := by
      refine firstViolationAux_none_hash H _ rest g 1 hvalid orig ?_
      rw [← horig']
      exact List.get_mem rest j hj
    have hb' : b'.hash ≠ calculate_hash H b' := by
      intro hEq
      exact hdiff (by rw [← hEq, hhash, horigh])
    have hset := firstViolationAux_set H st.min_task_certificates_per_block b' hb'
      rest g 1 j hj hvalid
    constructor
    · simp only [firstViolation, hch, List.set_cons_succ]
      rw [hset, Nat.add_comm]
    · simp only [is_chain_valid, firstViolation, hch, List.set_cons_succ]
      rw [hset]
      rfl

/-- C1 witness: a concrete two-block chain under the concrete hash `Hg`;
mutating the second block's nonce without recomputing its stored hash makes
the scan fail at index 1. -/
theorem tampered_nongenesis_block_invalidates_witness :
    firstViolation Hg { c1State with chain := c1State.chain.set 1 c1Tampered } = some 1 ∧
    is_chain_valid Hg { c1State with chain := c1State.chain.set 1 c1Tampered } = false :=
  tampered_nongenesis_block_invalidates Hg c1State 1 c1Tampered c1Block1
    (by decide) (by decide) (by decide) (by decide) (by decide)

/-- C1 counterexample: the genesis block is a previously sealed block, yet
mutating its transaction list without recomputing its stored hash (the
stored hash no longer matches the recomputed one) leaves `validate()`
returning true, because the loop starts at index 1 — contradicting the
claim for block index 0. -/
theorem genesis_tamper_not_detected :
    genTampered.transactions ≠ (create_genesis_block Hg 0).transactions ∧
    genTampered.hash = (create_genesis_block Hg 0).hash ∧
    genTampered.hash ≠ calculate_hash Hg genTampered ∧
    genTamperedState.chain = (initChain Hg 0).chain.set 0 genTampered ∧
    is_chain_valid Hg genTamperedState = true := by
  refine ⟨by decide, by decide, by decide, rfl, by decide⟩

/-- C2: `generate_task_certificate` reads `time.time()` twice — once for
the certificate's `timestamp` field and once inside the f-string that is
hashed into `signature`.  With successive clock readings 0 and 1 (and the
identity function standing in for sha256) the issued certificate stores
timestamp 0 while its signature covers the string built from reading 1, so
`signature ≠ Hsig(task_id ++ user_address ++ timestamp)` — the timestamp
is not captured once as the spec requires (`utils.generate_certificate`
shows the intended capture-once pattern). -/
theorem generate_task_certificate_signature_uses_second_clock :
    ∃ c : Cert, generate_task_certificate (fun s => s) "t" "u" true 0 1 = some c ∧
      c.timestamp = 0 ∧
      c.signature = (fun s : String => s) ("t" ++ "u" ++ toString (1 : Nat)) ∧
      c.signature ≠ (fun s : String => s) ("t" ++ "u" ++ toString c.timestamp) :=
  ⟨⟨"t", "u", 0, "tu1"⟩, by decide, rfl, by decide, by decide⟩

/-- C3: with at least `min_task_certificates_per_block` pending
certificates (and a terminating Proof-of-Work search, modelled by the fuel
hypothesis), `mine_block` succeeds, returning the newly sealed block — the
block is appended to the chain, is the new latest block, and stores its
own recomputed hash; on certificate shortfall it fails with the
insufficient-certificates error. -/
theorem mine_block_result_interface (H : HashInput → String) (st : ChainState)
    (miner : String) (t fuel : Nat) :
    (st.pending_task_certificates.length < st.min_task_certificates_per_block →
      mine_block H st miner t fuel = .insufficientCertificates
        { st with pending_transactions :=
            st.pending_transactions ++ [rewardTx miner st.mining_reward] }) ∧
    (∀ last n, st.min_task_certificates_per_block ≤ st.pending_task_certificates.length →
      st.chain.getLast? = some last →
      powSearch H st.difficulty (mineInput st miner t) fuel = some n →
      mine_block H st miner t fuel
          = .mined (minedBlock H st miner t n) (minedState H st miner t n) ∧
        (minedState H st miner t n).chain = st.chain ++ [minedBlock H st miner t n] ∧
        (minedState H st miner t n).chain.getLast? = some (minedBlock H st miner t n) ∧
        (minedBlock H st miner t n).hash = calculate_hash H (minedBlock H st miner t n)) := by
  refine ⟨fun hlt => mine_block_of_lt H hlt, ?_⟩
  intro last n hge hlast hpow
  refine ⟨mine_block_of_ge H hge hlast hpow, rfl, ?_, rfl⟩
  show (st.chain ++ [minedBlock H st miner t n]).getLast? = some (minedBlock H st miner t n)
  exact List.getLast?_concat _

/-- C3 witness: a fresh chain with exactly five pending certificates under
the constant hash `Hzero` mines successfully at nonce 0. -/
theorem mine_block_result_interface_witness :
    mine_block Hzero stReady "m" 7 0
        = .mined (minedBlock Hzero stReady "m" 7 0) (minedState Hzero stReady "m" 7 0) ∧
      (minedState Hzero stReady "m" 7 0).chain
        = stReady.chain ++ [minedBlock Hzero stReady "m" 7 0] ∧
      (minedState Hzero stReady "m" 7 0).chain.getLast?
        = some (minedBlock Hzero stReady "m" 7 0) ∧
      (minedBlock Hzero stReady "m" 7 0).hash
        = calculate_hash Hzero (minedBlock Hzero stReady "m" 7 0) :=
  (mine_block_result_interface Hzero stReady "m" 7 0).2
    (create_genesis_block Hzero 0) 0 (by decide) (by decide) (by decide)

/-- C4: on certificate shortfall, `mine_block` raises the
insufficient-certificates error; the chain and the pending-certificate
queue are unchanged, while the pending-transaction queue has grown by
exactly one reward transaction `{from: "network", to: miner, amount:
mining_reward}` at its end — and a second failed attempt appends a
duplicate reward entry. -/
theorem mine_block_shortfall_frame (H : HashInput → String) (st : ChainState)
    (miner : String) (t fuel t' fuel' : Nat)
    (hlt : st.pending_task_certificates.length < st.min_task_certificates_per_block) :
    ∃ st', mine_block H st miner t fuel = .insufficientCertificates st' ∧
      st'.chain = st.chain ∧
      st'.pending_task_certificates = st.pending_task_certificates ∧
      st'.pending_transactions = st.pending_transactions ++ [rewardTx miner st.mining_reward] ∧
      ∃ st'', mine_block H st' miner t' fuel' = .insufficientCertificates st'' ∧
        st''.pending_transactions = st.pending_transactions
          ++ [rewardTx miner st.mining_reward, rewardTx miner st.mining_reward] := by
  refine ⟨_, mine_block_of_lt H hlt, rfl, rfl, rfl, ?_⟩
  refine ⟨_, mine_block_of_lt H hlt, ?_⟩
  show (st.pending_transactions ++ [rewardTx miner st.mining_reward])
      ++ [rewardTx miner st.mining_reward]
    = st.pending_transactions ++ [rewardTx miner st.mining_reward, rewardTx miner st.mining_reward]
  simp

/-- C4 witness: a fresh chain (no pending certificates) fails to mine and
accumulates duplicate reward transactions over two failed attempts. -/
theorem mine_block_shortfall_frame_witness :
    ∃ st', mine_block Hzero (initChain Hzero 0) "m" 3 0 = .insufficientCertificates st' ∧
      st'.chain = (initChain Hzero 0).chain ∧
      st'.pending_task_certificates = (initChain Hzero 0).pending_task_certificates ∧
      st'.pending_transactions = (initChain Hzero 0).pending_transactions
        ++ [rewardTx "m" (initChain Hzero 0).mining_reward] ∧
      ∃ st'', mine_block Hzero st' "m" 4 0 = .insufficientCertificates st'' ∧
        st''.pending_transactions = (initChain Hzero 0).pending_transactions
          ++ [rewardTx "m" (initChain Hzero 0).mining_reward,
              rewardTx "m" (initChain Hzero 0).mining_reward] :=
  mine_block_shortfall_frame Hzero (initChain Hzero 0) "m" 3 0 4 0 (by decide)

/-- C5: `mine_block` fails with the insufficient-certificates error exactly
when fewer than `min_task_certificates_per_block` certificates are pending;
on success the sealed block contains exactly the first
`min_task_certificates_per_block` pending certificates in FIFO order, and
the remaining pending certificates are left in their original order. -/
theorem mine_block_certificate_gate (H : HashInput → String) (st : ChainState)
    (miner : String) (t fuel : Nat) :
    ((∃ st', mine_block H st miner t fuel = .insufficientCertificates st') ↔
      st.pending_task_certificates.length < st.min_task_certificates_per_block) ∧
    (∀ b st', mine_block H st miner t fuel = .mined b st' →
      b.task_certificates
          = st.pending_task_certificates.take st.min_task_certificates_per_block ∧
        st'.pending_task_certificates
          = st.pending_task_certificates.drop st.min_task_certificates_per_block) := by
  constructor
  · constructor
    · rintro ⟨st', h⟩
      exact (mine_block_insufficient_inv H h).1
    · intro hlt
      exact ⟨_, mine_block_of_lt H hlt⟩
  · intro b st' h
    obtain ⟨hge, last, n, hlast, hpow, hb, hst'⟩ := mine_block_mined_inv H h
    subst hb hst'
    exact ⟨rfl, rfl⟩

/-- C5 witness: with exactly five pending certificates the gate is not
triggered, and a successful mine consumes exactly those five in order. -/
theorem mine_block_certificate_gate_witness :
    (minedBlock Hzero stReady "m" 7 0).task_certificates
        = stReady.pending_task_certificates.take stReady.min_task_certificates_per_block ∧
      (minedState Hzero stReady "m" 7 0).pending_task_certificates
        = stReady.pending_task_certificates.drop stReady.min_task_certificates_per_block :=
  (mine_block_certificate_gate Hzero stReady "m" 7 0).2
    (minedBlock Hzero stReady "m" 7 0) (minedState Hzero stReady "m" 7 0) (by decide)

/-- C6: every block appended by a successful `mine_block` stores exactly
the hash recomputed from its six content fields (index, timestamp,
transactions, task_certificates, previous_hash, nonce), and that hash
begins with at least `difficulty` leading '0' characters. -/
theorem mined_block_sealed_and_meets_difficulty (H : HashInput → String)
    {st st' : ChainState} {miner : String} {t fuel : Nat} {b : Block}
    (h : mine_block H st miner t fuel = .mined b st') :
    b.hash = calculate_hash H b ∧ b.hash.take st.difficulty = zeros st.difficulty := by
  obtain ⟨hge, last, n, hlast, hpow, hb, hst'⟩ := mine_block_mined_inv H h
  subst hb
  refine ⟨rfl, ?_⟩
  have hok := powSearch_hashOk H (mineInput st miner t) fuel n hpow
  have hbh : (minedBlock H st miner t n).hash = H { mineInput st miner t with nonce := n } := rfl
  rw [hbh]
  simpa [hashOk] using hok

/-- C6 witness: the block mined on `stReady` under `Hzero` stores its own
recomputed hash and meets difficulty 4. -/
theorem mined_block_sealed_and_meets_difficulty_witness :
    (minedBlock Hzero stReady "m" 7 0).hash
        = calculate_hash Hzero (minedBlock Hzero stReady "m" 7 0) ∧
      (minedBlock Hzero stReady "m" 7 0).hash.take stReady.difficulty
        = zeros stReady.difficulty :=
  mined_block_sealed_and_meets_difficulty Hzero
    (show mine_block Hzero stReady "m" 7 0
      = .mined (minedBlock Hzero stReady "m" 7 0) (minedState Hzero stReady "m" 7 0) by decide)

/-- C7: `is_chain_valid` returns true on every chain state reachable from
a fresh `VirtusWorkChain()` by any sequence of `add_transaction`,
`add_task_certificate` and `mine_block` calls — in particular on the
genesis-only chain and on any untampered mined chain. -/
theorem reachable_chain_validates (H : HashInput → String) (st : ChainState)
    (h : Reachable H st) : is_chain_valid H st = true :=
  (reachable_inv H h).2.2.2.2

/-- C7 witness: the chain obtained by submitting five certificates and
mining once validates. -/
theorem reachable_chain_validates_witness :
    is_chain_valid Hzero (minedState Hzero stReady "m" 7 0) = true :=
  reachable_chain_validates Hzero _ stMined_reachable

lemma selectWalk_mem {sel : ℚ} :
    ∀ (l : Ledger) (c : ℚ) (k : String), selectWalk sel c l = some k → k ∈ l.map Prod.fst := by
  intro l
  induction l with
  | nil => intro c k h; cases h
  | cons e rest ih =>
    intro c k h
    obtain ⟨k', s⟩ := e
    by_cases hhit : sel ≤ c + s
    · simp only [selectWalk, if_pos hhit, Option.some.injEq] at h
      subst h
      exact List.mem_cons_self _ _
    · simp only [selectWalk, if_neg hhit] at h
      exact List.mem_cons_of_mem _ (ih (c + s) k h)

lemma getLastD_mem {l : Ledger} (hne : l ≠ []) (d : String × ℚ) : l.getLastD d ∈ l := by
  rw [List.getLastD_eq_getLast?, List.getLast?_eq_getLast l hne, Option.getD_some]
  exact List.getLast_mem hne

/-- C8: `select_validator` fails with `NoStakers` exactly when the ledger
is empty; for a draw in `[0, total_stake)` it returns the first key in
iteration order whose cumulative stake meets or exceeds the draw; and on
any non-empty ledger and any draw it returns a key present in the ledger
(covering the last-entry fallback branch as well). -/
theorem select_validator_weighted_choice (l : Ledger) (sel : ℚ) :
    (select_validator l sel = .error .noStakers ↔ l = []) ∧
    (0 ≤ sel → sel < totalStake l →
      ∃ i, ∃ hi : i < l.length,
        select_validator l sel = .ok (l.get ⟨i, hi⟩).1 ∧
        sel ≤ cumStake l i ∧
        (∀ j < i, cumStake l j < sel) ∧
        (l.get ⟨i, hi⟩).1 ∈ l.map Prod.fst) ∧
    (l ≠ [] → ∃ k, select_validator l sel = .ok k ∧ k ∈ l.map Prod.fst) := by
  refine ⟨?_, ?_, ?_⟩
  case refine_3 =>
    intro hne
    rw [select_validator, if_neg hne]
    rcases hw : selectWalk sel 0 l with _ | k
    · refine ⟨(l.getLastD ("", 0)).1, rfl, ?_⟩
      exact List.mem_map.mpr ⟨l.getLastD ("", 0), getLastD_mem hne _, rfl⟩
    · exact ⟨k, rfl, selectWalk_mem l 0 k hw⟩
  · constructor
    · intro h
      by_contra hne
      rw [select_validator, if_neg hne] at h
      rcases hw : selectWalk sel 0 l with _ | k <;> rw [hw] at h <;> cases h
    · intro h
      subst h
      rfl
  · intro hpos hlt
    have hne : l ≠ [] := by
      rintro rfl
      simp only [totalStake, List.map_nil, List.sum_nil] at hlt
      exact absurd hpos (not_le.mpr hlt)
    have hsum : sel ≤ 0 + (l.map Prod.snd).sum := by
      rw [zero_add]
      exact le_of_lt hlt
    obtain ⟨i, hi, hw, hcum, hprev⟩ := selectWalk_spec sel l 0 hne hsum
    refine ⟨i, hi, ?_, ?_, ?_, ?_⟩
    · rw [select_validator, if_neg hne, hw]
    · simpa [cumStake] using hcum
    · intro j hj
      simpa [cumStake] using hprev j hj
    · exact List.mem_map.mpr ⟨l.get ⟨i, hi⟩, List.get_mem l i hi, rfl⟩

/-- C8 witness: over the ledger `{A: 90, B: 10}` with draw 95, the theorem
applies (95 lies in `[0, 100)`) and characterizes the selected key. -/
theorem select_validator_weighted_choice_witness :
    ∃ i, ∃ hi : i < l0.length,
      select_validator l0 95 = .ok (l0.get ⟨i, hi⟩).1 ∧
      (95 : ℚ) ≤ cumStake l0 i ∧
      (∀ j < i, cumStake l0 j < 95) ∧
      (l0.get ⟨i, hi⟩).1 ∈ l0.map Prod.fst :=
  (select_validator_weighted_choice l0 95).2.1 (by norm_num) (by norm_num [totalStake, l0])

/-- C9: `remove_staker` fails with the insufficient-stake error exactly
when the key is absent or its balance is below the amount; otherwise it
subtracts, removing the entry entirely when the balance reaches exactly
zero, after which `calculate_reward` returns 0 for that key. -/
theorem remove_staker_spec (l : Ledger) (pk : String) (a : ℚ)
    (hnd : (l.map Prod.fst).Nodup) :
    (remove_staker l pk a = .error .insufficientStake ↔
      dictGet l pk = none ∨ ∃ bal, dictGet l pk = some bal ∧ bal < a) ∧
    (∀ bal, dictGet l pk = some bal → a ≤ bal →
      ∃ l', remove_staker l pk a = .ok l' ∧
        dictGet l' pk = (if bal - a = 0 then none else some (bal - a)) ∧
        (bal = a → calculate_reward l' pk = 0)) := by
  constructor
  · constructor
    · intro h
      rcases hg : dictGet l pk with _ | bal
      · exact Or.inl rfl
      · refine Or.inr ⟨bal, rfl, ?_⟩
        by_contra hb
        simp only [remove_staker, hg, if_neg hb] at h
        by_cases hz : bal - a = 0 <;> simp [hz] at h
    · rintro (hnone | ⟨bal, hget, hba⟩)
      · simp [remove_staker, hnone]
      · simp [remove_staker, hget, hba]
  · intro bal hget hba
    have hnb : ¬ bal < a := not_lt.mpr hba
    by_cases hz : bal - a = 0
    · refine ⟨dictDel l pk, ?_, ?_, ?_⟩
      · simp [remove_staker, hget, hnb, hz]
      · rw [if_pos hz]
        exact dictGet_dictDel_self hnd
      · intro _
        rw [calculate_reward, dictGet_dictDel_self hnd]
        norm_num
    · refine ⟨dictUpdate l pk (bal - a), ?_, ?_, ?_⟩
      · simp [remove_staker, hget, hnb, hz]
      · rw [if_neg hz]
        exact dictGet_dictUpdate_self hget
      · intro hbal
        exact absurd (by rw [hbal]; ring) hz

/-- C9 witness: withdrawing the full stake of `A` from `{A: 10}` removes
the entry and a subsequent reward computation yields 0. -/
theorem remove_staker_spec_witness :
    ∃ l', remove_staker l1 "A" 10 = .ok l' ∧
      dictGet l' "A" = (if (10 : ℚ) - 10 = 0 then none else some (10 - 10)) ∧
      ((10 : ℚ) = 10 → calculate_reward l' "A" = 0) :=
  (remove_staker_spec l1 "A" 10 (by decide)).2 10 rfl (le_refl 10)

/-- C10: every chain state reachable from a fresh `VirtusWorkChain()` by
any sequence of `add_transaction`, `add_task_certificate` and `mine_block`
calls has a well-formed block sequence: non-empty, block at position `i`
has index `i`, position 0 holds the genesis block (index 0, empty
transactions and certificates, previous_hash `"0"`), and each later
block's `previous_hash` equals the stored hash of its predecessor. -/
theorem reachable_chain_wellformed (H : HashInput → String) (st : ChainState)
    (h : Reachable H st) :
    st.chain ≠ [] ∧
    st.chain.map Block.index = List.range st.chain.length ∧
    (st.chain.head?.map fun b => (b.index, b.transactions, b.task_certificates, b.previous_hash))
      = some (0, [], [], "0") ∧
    List.Chain' (fun a b => b.previous_hash = a.hash) st.chain :=
  ⟨(reachable_inv H h).1, (reachable_inv H h).2.1, (reachable_inv H h).2.2.1,
    (reachable_inv H h).2.2.2.1⟩

/-- C10 witness: the well-formedness conjunction at the concrete mined
chain. -/
theorem reachable_chain_wellformed_witness :
    (minedState Hzero stReady "m" 7 0).chain ≠ [] ∧
    (minedState Hzero stReady "m" 7 0).chain.map Block.index
      = List.range (minedState Hzero stReady "m" 7 0).chain.length ∧
    ((minedState Hzero stReady "m" 7 0).chain.head?.map
        fun b => (b.index, b.transactions, b.task_certificates, b.previous_hash))
      = some (0, [], [], "0") ∧
    List.Chain' (fun a b => b.previous_hash = a.hash) (minedState Hzero stReady "m" 7 0).chain :=
  reachable_chain_wellformed Hzero _ stMined_reachable
